import Mathlib

/-!
Verification of the timelog bot core (`timelogbot.py`).

The Python source is shallowly embedded: page bodies and report fragments are
`List Char`, real numbers (Python floats) are modelled as `ℚ`, calendar dates
are a year/month/day record, datetimes used for day arithmetic are `ℚ`
(fractional days on the time line), and fallible code returns `Except`.

The embedded operations are, in source order:
* `normalize_project_id`   (identifier normalizer),
* `render` with its helpers (`Confluence.update_report_page`, the pure
  body-rewriting part: marker search, idempotence guard, report generation,
  monthly aggregation),
* `evaluateNotification` / `emailerUpdate` (the pure decision core and the
  state/email effects of `EMailer.update`),
* `mainProjectStartDate` (the `project_start_date` argument `main` passes).
-/

namespace Timelog

set_option maxRecDepth 10000

/-! ## Characters, digits, decimal strings -/

/-- Decimal digit character for `n < 10` (callers only pass such `n`). -/
def digitChar : ℕ → Char
  | 0 => '0' | 1 => '1' | 2 => '2' | 3 => '3' | 4 => '4'
  | 5 => '5' | 6 => '6' | 7 => '7' | 8 => '8' | _ => '9'

/-- Value of a decimal digit character (0 on non-digits; guarded by callers). -/
def digitVal (c : Char) : ℕ :=
  if '0' ≤ c ∧ c ≤ '9' then c.toNat - 48 else 0

/-- Is `c` one of `0`-`9`? -/
def isDigitChar (c : Char) : Bool :=
  decide ('0' ≤ c) && decide (c ≤ '9')

/-- Character class `[0-9.]` of the regular expression in
`Confluence.update_report_page`. -/
def isNumChar (c : Char) : Bool :=
  isDigitChar c || c == '.'

/-- Decimal representation of a natural number, as Python `str`/`format`
produce it (no sign, no padding). -/
def natRepr (n : ℕ) : List Char :=
  if _h : n < 10 then [digitChar n]
  else natRepr (n / 10) ++ [digitChar (n % 10)]
decreasing_by exact Nat.div_lt_self (by omega) (by omega)

/-- Decimal representation of an integer (used for `%Y` year rendering). -/
def intRepr (n : ℤ) : List Char :=
  if n < 0 then '-' :: natRepr n.natAbs else natRepr n.natAbs

/-- Numeric value of a digit string, most significant first. -/
def digitsToNat (cs : List Char) : ℕ :=
  cs.foldl (fun a c => 10 * a + digitVal c) 0

/-- Left-pad a digit string with `'0'` up to width `k`. -/
def padLeft (k : ℕ) (cs : List Char) : List Char :=
  List.replicate (k - cs.length) '0' ++ cs

/-! ## Rounding and fixed-point formatting

Python's `format` rounds floats with round-half-to-even.  Reals are modelled
as `ℚ`, so rounding is exact here. -/

/-- Round half to even, the rounding Python `format` applies. -/
def roundHE (x : ℚ) : ℤ :=
  let f := x.floor
  let r := x - f
  if r < 1/2 then f
  else if 1/2 < r then f + 1
  else if f % 2 = 0 then f else f + 1

/-- Python `"{:.prec f}".format q`: fixed-point with `prec` digits after the
point, no point when `prec = 0`.  (For `-0.005 < q < 0`, Python keeps a
`-0.00`-style sign that this model drops; all uses in the claims have
`0 ≤ q`.) -/
def formatFixed (prec : ℕ) (q : ℚ) : List Char :=
  (if roundHE (q * (10 : ℚ) ^ prec) < 0 then ['-'] else []) ++
    natRepr ((roundHE (q * (10 : ℚ) ^ prec)).natAbs / 10 ^ prec) ++
    (if prec = 0 then []
     else '.' :: padLeft prec (natRepr ((roundHE (q * (10 : ℚ) ^ prec)).natAbs % 10 ^ prec)))

/-- Python `"{:.1%}".format q`: value times 100, one decimal, percent sign. -/
def formatPct (q : ℚ) : List Char :=
  formatFixed 1 (q * 100) ++ ['%']

/-! ## Parsing (`float(...)` on the regex groups)

The regex groups handed to `float` are nonempty `[0-9.]+` strings.  On those,
`float` succeeds exactly when there is at most one `'.'` and at least one
digit; this parser mirrors that (it rejects anything else, matching
`ValueError`). -/

/-- Split at the first `'.'`: the part before it and, if present, the raw
remainder after it. -/
def breakDot : List Char → List Char × Option (List Char)
  | [] => ([], none)
  | c :: cs =>
    if c = '.' then ([], some cs)
    else
      let (a, b) := breakDot cs
      (c :: a, b)

/-- `float` on a `[0-9.]+` group: `Option ℚ`, `none` for `ValueError`. -/
def parseFloat (cs : List Char) : Option ℚ :=
  let (ip, rest) := breakDot cs
  match rest with
  | none =>
    if ip ≠ [] ∧ ip.all isDigitChar then some (digitsToNat ip : ℚ) else none
  | some fp =>
    if fp.contains '.' then none
    else if ip = [] ∧ fp = [] then none
    else if ip.all isDigitChar ∧ fp.all isDigitChar then
      some ((digitsToNat ip : ℚ) + (digitsToNat fp : ℚ) / 10 ^ fp.length)
    else none

/-! ## Marker location and the `"X out of Y hours used"` search

`update_report_page` looks for the literal marker `"<hr />"` with `str.find`
and then applies `re.search("([0-9.]+) out of ([0-9.]+) hours used", ...)`.
Because the character class `[0-9.]` excludes the space that must follow each
group, the regex engine's greedy match at a position succeeds exactly when the
maximal `[0-9.]` run there is followed by the literal text, so the search is
embedded as a leftmost scan with maximal runs. -/

/-- The marker `"<hr />"` delimiting hand-authored content. -/
def markerL : List Char := ['<', 'h', 'r', ' ', '/', '>']

/-- The literal `" out of "` between the two regex groups. -/
def outOfL : List Char := [' ', 'o', 'u', 't', ' ', 'o', 'f', ' ']

/-- The literal `" hours used"` after the second regex group. -/
def hoursUsedL : List Char := [' ', 'h', 'o', 'u', 'r', 's', ' ', 'u', 's', 'e', 'd']

/-- Split a body at the first occurrence of the marker:
`text[:index]` and `text[index:]` for `index = text.find("<hr />") ≥ 0`,
`none` when `find` returns `-1`. -/
def splitMarker : List Char → Option (List Char × List Char)
  | [] => none
  | c :: cs =>
    if markerL.isPrefixOf (c :: cs) then some ([], c :: cs)
    else
      match splitMarker cs with
      | some (p, r) => some (c :: p, r)
      | none => none

/-- Maximal `[0-9.]` run at the front, with the remainder. -/
def numSpan : List Char → List Char × List Char
  | [] => ([], [])
  | c :: cs =>
    if isNumChar c then
      let (a, b) := numSpan cs
      (c :: a, b)
    else ([], c :: cs)

/-- Match `([0-9.]+) out of ([0-9.]+) hours used` anchored at the front,
returning the two groups. -/
def matchAt (cs : List Char) : Option (List Char × List Char) :=
  let (x, r1) := numSpan cs
  if x = [] then none
  else if outOfL.isPrefixOf r1 then
    let r2 := r1.drop outOfL.length
    let (y, r3) := numSpan r2
    if y = [] then none
    else if hoursUsedL.isPrefixOf r3 then some (x, y)
    else none
  else none

/-- Leftmost match of the pattern, as `re.search`. -/
def searchPat : List Char → Option (List Char × List Char)
  | [] => none
  | c :: cs =>
    match matchAt (c :: cs) with
    | some r => some r
    | none => searchPat cs

/-! ## Data model -/

/-- A calendar date (the `datetime` values carried by work units compare
lexicographically by year, month, day). -/
structure Date where
  year : ℤ
  month : ℤ
  day : ℤ
deriving DecidableEq, Repr

/-- Lexicographic order on dates, as `datetime` comparison. -/
def Date.leB (a b : Date) : Bool :=
  decide (a.year < b.year) ||
    (decide (a.year = b.year) &&
      (decide (a.month < b.month) ||
        (decide (a.month = b.month) && decide (a.day ≤ b.day))))

/-- A logged time entry: `{'date': ..., 'hours': ...}`. -/
structure WorkUnit where
  date : Date
  hours : ℚ
deriving DecidableEq, Repr

/-- `work_hours`: total hours of a list of work units. -/
def work_hours (units : List WorkUnit) : ℚ :=
  (units.map (·.hours)).sum

/-! ## Monthly aggregation and report generation -/

/-- Descending-date order used by `sorted(work_units, key=..., reverse=True)`:
`u` comes before `v` when `v.date ≤ u.date`. -/
def unitGe (u v : WorkUnit) : Prop :=
  Date.leB v.date u.date = true

instance : DecidableRel unitGe := fun u v => by
  unfold unitGe; infer_instance

/-- `sorted(work_units, key=lambda wu: wu['date'], reverse=True)`.  Python's
sort is stable; this insertion sort may order equal dates differently, which
cannot affect the grouped rows (groups are keyed and summed, and equal dates
share a month). -/
def sortedUnits (units : List WorkUnit) : List WorkUnit :=
  List.insertionSort unitGe units

/-- The `groupby` key `(wu['date'].year, wu['date'].month)`. -/
def monthKey (u : WorkUnit) : ℤ × ℤ :=
  (u.date.year, u.date.month)

/-- `itertools.groupby` over an adjacent-key-grouped traversal, summing each
group's hours: one `(key, total)` row per maximal run of equal keys. -/
def groupSums : List WorkUnit → List ((ℤ × ℤ) × ℚ)
  | [] => []
  | u :: us =>
    match groupSums us with
    | [] => [(monthKey u, u.hours)]
    | (k, s) :: rest =>
      if monthKey u = k then (k, s + u.hours) :: rest
      else (monthKey u, u.hours) :: (k, s) :: rest

/-- The month report rows: group the date-descending-sorted units by
`(year, month)` and sum hours per group. -/
def monthlyRows (units : List WorkUnit) : List ((ℤ × ℤ) × ℚ) :=
  groupSums (sortedUnits units)

/-- Strict lexicographic order on `(year, month)` keys ("later month"). -/
def keyLt (a b : ℤ × ℤ) : Prop :=
  a.1 < b.1 ∨ (a.1 = b.1 ∧ a.2 < b.2)

/-- Per-key total hours over a unit list. -/
def sumFor (k : ℤ × ℤ) (l : List WorkUnit) : ℚ :=
  ((l.filter fun u => decide (monthKey u = k)).map (·.hours)).sum

/-- `strftime("%B")`: full month name (months outside 1-12 cannot arise from
`datetime` values and render empty here). -/
def monthName : ℤ → List Char
  | 1 => "January".toList
  | 2 => "February".toList
  | 3 => "March".toList
  | 4 => "April".toList
  | 5 => "May".toList
  | 6 => "June".toList
  | 7 => "July".toList
  | 8 => "August".toList
  | 9 => "September".toList
  | 10 => "October".toList
  | 11 => "November".toList
  | 12 => "December".toList
  | _ => []

/-- One `<tr>` row of the month table. -/
def rowStr (row : (ℤ × ℤ) × ℚ) : List Char :=
  "<tr><td>".toList ++ monthName row.1.2 ++ [' '] ++ intRepr row.1.1 ++
    "</td><td>".toList ++ formatFixed 2 row.2 ++ "</td></tr>\n".toList

/-- The full month table appended to the report. -/
def tableStr (units : List WorkUnit) : List Char :=
  "<p><table>\n<tr><th>Date</th><th>Hours spent</th></tr>\n".toList ++
    (monthlyRows units).flatMap rowStr ++ "</table></p>".toList

/-- `hours_spent / budget if budget > 0 else 0.0`. -/
def percentOf (hours budget : ℚ) : ℚ :=
  if budget > 0 then hours / budget else 0

/-- The same expression with the division modelled as fallible, to state that
the `budget > 0` guard keeps `ZeroDivisionError` unreachable. -/
def safeDiv (a b : ℚ) : Except String ℚ :=
  if b = 0 then .error "ZeroDivisionError" else .ok (a / b)

/-- `percentOf` with the division treated as fallible. -/
def computePercent (hours budget : ℚ) : Except String ℚ :=
  if budget > 0 then safeDiv hours budget else .ok 0

/-- Everything the generated report places after the `"<hr />"` marker
(the dedented heading and summary line with `formatPct` spelled out, then the
month table). -/
def reportTail (name : List Char) (units : List WorkUnit) (budget hours : ℚ) :
    List Char :=
  "\n<h2>Project ".toList ++ (name ++ (" is ".toList ++
    (formatFixed 1 (percentOf hours budget * 100) ++ ('%' ::
      (" complete</h2>\n<p>".toList ++
        (formatFixed 2 hours ++ (outOfL ++ (formatFixed 0 budget ++
          (hoursUsedL ++ (".</p>\n".toList ++ tableStr units))))))))))

/-- `text + "\n" + report`: the `"\n"` joining the kept body to the report,
then the report, whose dedented text starts with `"\n<hr />"`. -/
def newBody (pre name : List Char) (units : List WorkUnit) (budget hours : ℚ) :
    List Char :=
  pre ++ '\n' :: '\n' :: (markerL ++ reportTail name units budget hours)

/-- The pure body-rewriting core of `Confluence.update_report_page`:
given the page's existing body, return the new body and whether it changed
(`.error` models the `ValueError` that `float` raises on a pathological
`[0-9.]+` group). -/
def render (name body : List Char) (units : List WorkUnit) (budget : ℚ)
    (force : Bool) : Except String (List Char × Bool) :=
  let hours := work_hours units
  match splitMarker body with
  | some (pre, rest) =>
    if force then .ok (newBody pre name units budget hours, true)
    else
      match searchPat rest with
      | none => .ok (newBody pre name units budget hours, true)
      | some (xs, ys) =>
        match parseFloat xs, parseFloat ys with
        | some px, some pb =>
          if |hours - px| < 1/100 ∧ |pb - budget| < 1/100 then .ok (body, false)
          else .ok (newBody pre name units budget hours, true)
        | _, _ => .error "ValueError"
  | none => .ok (newBody body name units budget hours, true)

/-- The `changed` flag of a render outcome. -/
def changedOf : Except String (List Char × Bool) → Option Bool
  | .ok (_, c) => some c
  | .error _ => none

/-- The body of a render outcome (empty on error). -/
def renderBody : Except String (List Char × Bool) → List Char
  | .ok (b, _) => b
  | .error _ => []

/-- The portion of a body strictly before its first marker occurrence
(the whole body when the marker is absent). -/
def preOf (body : List Char) : List Char :=
  match splitMarker body with
  | some (p, _) => p
  | none => body

/-! ## Identifier normalizer -/

/-- The per-character map of `normalize_project_id`'s `str.translate` table
(identity outside the table). -/
def normalizeChar (c : Char) : Char :=
  if c = 'ö' then 'o'
  else if c = 'ä' then 'a'
  else if c = 'å' then 'a'
  else if c = 'Ö' then 'O'
  else if c = 'Ä' then 'A'
  else if c = 'Å' then 'A'
  else c

/-- `normalize_project_id`: replace the mapped accented letters, keep all
other characters (`str.translate` with single-character targets). -/
def normalize_project_id (s : List Char) : List Char :=
  s.map normalizeChar

/-! ## Threshold evaluator (`EMailer.update`)

`previous_hours`/`previous_date` come from one database row, so they are
absent or present together: `previous : Option (ℚ × ℚ)`.  Datetimes are
points on the time line measured in days, embedded as `ℚ`;
`timedelta.days` is the floor of the difference. -/

/-- `CHECKPOINT_HOURS = (100, 300)`. -/
def CHECKPOINT_HOURS : List ℕ := [100, 300]

/-- `CHECKPOINT_DAYS = 365`. -/
def CHECKPOINT_DAYS : ℕ := 365

/-- A notification e-mail's content, as far as the claims constrain it. -/
inductive Notification where
  | hourCheckpoint (checkpoint : ℕ) (elapsedDays : ℤ)
  | dayCheckpoint (days : ℕ) (hours : ℚ)
deriving DecidableEq, Repr

/-- The pure decision core of `EMailer.update`: which notification (if any)
fires, given the stored `(previous_hours, previous_date)` row, the current
hours, the project start datetime and the current datetime.  The hour loop
walks `CHECKPOINT_HOURS` in order and breaks at the first crossing; the day
rule runs only when no hour notification fired. -/
def evaluateNotification (previous : Option (ℚ × ℚ)) (hours : ℚ)
    (start today : ℚ) : Option Notification :=
  let elapsed := (today - start).floor
  let hourNotif : Option Notification :=
    match previous with
    | none => none
    | some (ph, _) =>
      (CHECKPOINT_HOURS.find? fun (c : ℕ) => decide (ph < (c : ℚ)) && decide ((c : ℚ) ≤ hours)).map
        (fun c => .hourCheckpoint c elapsed)
  match hourNotif with
  | some n => some n
  | none =>
    match previous with
    | none => none
    | some (_, pd) =>
      if pd < start + (CHECKPOINT_DAYS : ℚ) ∧ start + (CHECKPOINT_DAYS : ℚ) ≤ today then
        some (.dayCheckpoint CHECKPOINT_DAYS hours)
      else none

/-- The state store's view: project name to `(hours, timestamp)` row. -/
def Db : Type := String → Option (ℚ × ℚ)

/-- `INSERT OR REPLACE` of `Database.__setitem__`: the row gets the new hours
and a fresh `CURRENT_TIMESTAMP`. -/
def dbSet (db : Db) (name : String) (hours stamp : ℚ) : Db :=
  fun n => if n = name then some (hours, stamp) else db n

/-- `EMailer.update` with its effects: decide the notification, send it
(`sendFails = true` models an SMTP transport error, which propagates and
aborts before the store is written), then unconditionally upsert the row and
report whether an e-mail went out. -/
def emailerUpdate (db : Db) (sendFails : Bool) (name : String) (hours : ℚ)
    (start today : ℚ) : Except Unit (Db × Bool) :=
  match evaluateNotification (db name) hours start today with
  | some _ =>
    if sendFails then .error ()
    else .ok (dbSet db name hours today, true)
  | none => .ok (dbSet db name hours today, false)

/-! ## The driver's `project_start_date` argument -/

/-- The value `main` passes as `project_start_date`:
`work_units[-1]['date']`, the date of the last work unit in the order the
tracker returned them (`main` only calls the evaluator when `work_units` is
nonempty). -/
def mainProjectStartDate (units : List WorkUnit) : Option Date :=
  units.getLast?.map (·.date)

/-! ## Lemmas: digits and decimal strings -/

theorem digitChar_digit {d : ℕ} (h : d < 10) : isDigitChar (digitChar d) = true := by
  interval_cases d <;> decide

theorem digitVal_digitChar {d : ℕ} (h : d < 10) : digitVal (digitChar d) = d := by
  interval_cases d <;> decide

theorem natRepr_lt10 {n : ℕ} (h : n < 10) : natRepr n = [digitChar n] := by
  rw [natRepr]
  simp [h]

theorem natRepr_ge10 {n : ℕ} (h : ¬n < 10) :
    natRepr n = natRepr (n / 10) ++ [digitChar (n % 10)] := by
  rw [natRepr]
  simp [h]

theorem natRepr_ne_nil (n : ℕ) : natRepr n ≠ [] := by
  by_cases h : n < 10
  · rw [natRepr_lt10 h]; simp
  · rw [natRepr_ge10 h]; simp

theorem natRepr_digits (n : ℕ) : ∀ c ∈ natRepr n, isDigitChar c = true := by
  induction n using Nat.strong_induction_on with
  | _ n ih =>
    by_cases h : n < 10
    · rw [natRepr_lt10 h]
      intro c hc
      rw [List.mem_singleton] at hc
      subst hc
      exact digitChar_digit h
    · rw [natRepr_ge10 h]
      intro c hc
      rcases List.mem_append.mp hc with hc | hc
      · exact ih (n / 10) (Nat.div_lt_self (by omega) (by omega)) c hc
      · rw [List.mem_singleton] at hc
        subst hc
        exact digitChar_digit (Nat.mod_lt _ (by omega))

theorem digit_isNum {c : Char} (h : isDigitChar c = true) : isNumChar c = true := by
  simp [isNumChar, h]

theorem dot_not_digit : isDigitChar '.' = false := by decide

theorem no_dot_of_digits {cs : List Char} (h : ∀ c ∈ cs, isDigitChar c = true) :
    '.' ∉ cs := by
  intro hmem
  have := h _ hmem
  simp [dot_not_digit] at this

theorem digitsToNat_append_one (l : List Char) (c : Char) :
    digitsToNat (l ++ [c]) = 10 * digitsToNat l + digitVal c := by
  simp [digitsToNat, List.foldl_append]

theorem digitsToNat_natRepr (n : ℕ) : digitsToNat (natRepr n) = n := by
  induction n using Nat.strong_induction_on with
  | _ n ih =>
    by_cases h : n < 10
    · rw [natRepr_lt10 h]
      simp [digitsToNat, digitVal_digitChar h]
    · rw [natRepr_ge10 h, digitsToNat_append_one,
        ih (n / 10) (Nat.div_lt_self (by omega) (by omega)),
        digitVal_digitChar (Nat.mod_lt _ (by omega))]
      omega

theorem digitsToNat_replicate_zero (k : ℕ) (cs : List Char) :
    digitsToNat (List.replicate k '0' ++ cs) = digitsToNat cs := by
  induction k with
  | zero => simp
  | succ k ih =>
    rw [List.replicate_succ, List.cons_append]
    simpa [digitsToNat, digitVal] using ih

theorem digitsToNat_padLeft (k : ℕ) (cs : List Char) :
    digitsToNat (padLeft k cs) = digitsToNat cs :=
  digitsToNat_replicate_zero _ _

theorem padLeft_digits {k : ℕ} {cs : List Char}
    (h : ∀ c ∈ cs, isDigitChar c = true) :
    ∀ c ∈ padLeft k cs, isDigitChar c = true := by
  intro c hc
  rcases List.mem_append.mp hc with hc | hc
  · rw [List.eq_of_mem_replicate hc]; decide
  · exact h c hc

theorem padLeft_length {k : ℕ} {cs : List Char} (h : cs.length ≤ k) :
    (padLeft k cs).length = k := by
  simp [padLeft]
  omega

theorem natRepr_length_le_two {n : ℕ} (h : n < 100) :
    (natRepr n).length ≤ 2 := by
  by_cases h10 : n < 10
  · rw [natRepr_lt10 h10]; simp
  · rw [natRepr_ge10 h10, natRepr_lt10 (by omega : n / 10 < 10)]
    simp

/-! ## Lemmas: parsing -/

theorem breakDot_no_dot {cs : List Char} (h : '.' ∉ cs) :
    breakDot cs = (cs, none) := by
  induction cs with
  | nil => rfl
  | cons c cs ih =>
    rw [List.mem_cons, not_or] at h
    rw [breakDot, if_neg (fun hc => h.1 hc.symm), ih h.2]

theorem breakDot_first {l r : List Char} (h : '.' ∉ l) :
    breakDot (l ++ '.' :: r) = (l, some r) := by
  induction l with
  | nil => simp [breakDot]
  | cons c cs ih =>
    rw [List.mem_cons, not_or] at h
    rw [List.cons_append, breakDot, if_neg (fun hc => h.1 hc.symm), ih h.2]

theorem parseFloat_natRepr (n : ℕ) : parseFloat (natRepr n) = some ((n : ℕ) : ℚ) := by
  rw [parseFloat, breakDot_no_dot (no_dot_of_digits (natRepr_digits n))]
  dsimp only
  rw [if_pos ⟨natRepr_ne_nil n, List.all_eq_true.mpr (natRepr_digits n)⟩]
  simp [digitsToNat_natRepr]

theorem parseFloat_dec2 (a b : ℕ) (hb : b < 100) :
    parseFloat (natRepr a ++ '.' :: padLeft 2 (natRepr b)) = some ((a : ℚ) + b / 100) := by
  have hpad : ∀ c ∈ padLeft 2 (natRepr b), isDigitChar c = true :=
    padLeft_digits (natRepr_digits b)
  rw [parseFloat, breakDot_first (no_dot_of_digits (natRepr_digits a))]
  dsimp only
  rw [if_neg (by simpa using no_dot_of_digits hpad)]
  rw [if_neg (by simp [natRepr_ne_nil a])]
  rw [if_pos ⟨List.all_eq_true.mpr (natRepr_digits a), List.all_eq_true.mpr hpad⟩]
  rw [digitsToNat_natRepr, digitsToNat_padLeft, digitsToNat_natRepr,
    padLeft_length (natRepr_length_le_two hb)]
  norm_num

/-! ## Lemmas: rounding and fixed-point formatting -/

theorem ratFloor_eq_intFloor (x : ℚ) : x.floor = ⌊x⌋ := by
  rw [Rat.floor_def', Rat.floor_def]

theorem roundHE_nonneg {x : ℚ} (h : 0 ≤ x) : 0 ≤ roundHE x := by
  have hb := ratFloor_eq_intFloor x
  have h0 : (0 : ℤ) ≤ ⌊x⌋ := Int.floor_nonneg.mpr h
  rw [roundHE]
  simp only [hb]
  split_ifs <;> omega

theorem abs_sub_roundHE (x : ℚ) : |x - (roundHE x : ℚ)| ≤ 1 / 2 := by
  have hb := ratFloor_eq_intFloor x
  have h1 : (⌊x⌋ : ℚ) ≤ x := Int.floor_le x
  have h2 : x < ⌊x⌋ + 1 := Int.lt_floor_add_one x
  rw [roundHE]
  simp only [hb]
  split_ifs with hc1 hc2 hc3 <;> rw [abs_le] <;> constructor <;> push_cast at * <;> linarith

theorem roundHE_intCast (k : ℤ) : roundHE (k : ℚ) = k := by
  have hb := ratFloor_eq_intFloor (k : ℚ)
  rw [roundHE]
  simp only [hb, Int.floor_intCast]
  norm_num

theorem formatFixed_of_nonneg {prec : ℕ} {q : ℚ} (h : 0 ≤ q) :
    formatFixed prec q =
      natRepr ((roundHE (q * 10 ^ prec)).natAbs / 10 ^ prec) ++
        (if prec = 0 then [] else
          '.' :: padLeft prec (natRepr ((roundHE (q * 10 ^ prec)).natAbs % 10 ^ prec))) := by
  have hm : 0 ≤ roundHE (q * 10 ^ prec) := roundHE_nonneg (by positivity)
  rw [formatFixed, if_neg (by omega)]
  simp

theorem format0_natCast (n : ℕ) : formatFixed 0 (n : ℚ) = natRepr n := by
  have hcast : ((n : ℚ)) * 10 ^ (0 : ℕ) = ((n : ℤ) : ℚ) := by push_cast; ring
  rw [formatFixed_of_nonneg (Nat.cast_nonneg n)]
  rw [hcast, roundHE_intCast]
  simp

theorem parseFloat_format2 {q : ℚ} (h : 0 ≤ q) :
    parseFloat (formatFixed 2 q) = some ((roundHE (q * 100) : ℚ) / 100) := by
  have hm : 0 ≤ roundHE (q * 100) := roundHE_nonneg (by positivity)
  have h100 : (q * 10 ^ (2 : ℕ)) = q * 100 := by norm_num
  rw [formatFixed_of_nonneg h, h100]
  rw [if_neg (by norm_num)]
  have hlt : (roundHE (q * 100)).natAbs % 10 ^ (2 : ℕ) < 100 := by
    have := Nat.mod_lt (roundHE (q * 100)).natAbs (show 0 < 10 ^ (2:ℕ) by norm_num)
    omega
  rw [parseFloat_dec2 _ _ hlt]
  congr 1
  have habs : ((roundHE (q * 100)).natAbs : ℤ) = roundHE (q * 100) :=
    Int.natAbs_of_nonneg hm
  set a := (roundHE (q * 100)).natAbs with ha
  have key : ((100 * (a / 100) + a % 100 : ℕ) : ℚ) = (a : ℚ) := by
    rw [Nat.div_add_mod]
  have hq : (roundHE (q * 100) : ℚ) = (a : ℚ) := by
    rw [← habs]; push_cast; ring
  push_cast at key
  rw [hq]
  have h2 : a % 10 ^ (2:ℕ) = a % 100 := by norm_num
  have h2' : a / 10 ^ (2:ℕ) = a / 100 := by norm_num
  rw [h2, h2']
  field_simp
  linarith

theorem abs_sub_round2 (q : ℚ) : |q - (roundHE (q * 100) : ℚ) / 100| ≤ 1 / 200 := by
  have h := abs_sub_roundHE (q * 100)
  rw [abs_le] at h ⊢
  constructor <;> linarith

theorem formatFixed_num {prec : ℕ} {q : ℚ} (h : 0 ≤ q) :
    formatFixed prec q ≠ [] ∧ ∀ c ∈ formatFixed prec q, isNumChar c = true := by
  rw [formatFixed_of_nonneg h]
  refine ⟨by simp [natRepr_ne_nil], ?_⟩
  intro c hc
  rcases List.mem_append.mp hc with hc | hc
  · exact digit_isNum (natRepr_digits _ _ hc)
  · split at hc
    · simp at hc
    · rcases List.mem_cons.mp hc with hc | hc
      · subst hc; decide
      · exact digit_isNum (padLeft_digits (natRepr_digits _) _ hc)

/-! ## Lemmas: list prefixes and the marker -/

theorem ipo_iff_exists {l m : List Char} :
    l.isPrefixOf m = true ↔ ∃ r, m = l ++ r := by
  induction l generalizing m with
  | nil =>
    simp [List.isPrefixOf]
  | cons c cs ih =>
    cases m with
    | nil => simp [List.isPrefixOf]
    | cons d ds =>
      simp only [List.isPrefixOf, Bool.and_eq_true, beq_iff_eq, ih, List.cons_append,
        List.cons.injEq]
      constructor
      · rintro ⟨hcd, r, hr⟩
        exact ⟨r, hcd.symm, hr⟩
      · rintro ⟨r, hcd, hr⟩
        exact ⟨hcd.symm, r, hr⟩

theorem ipo_append (l m : List Char) : l.isPrefixOf (l ++ m) = true :=
  ipo_iff_exists.mpr ⟨m, rfl⟩

theorem ipo_extend {l a : List Char} (h : l.isPrefixOf a = true) (b : List Char) :
    l.isPrefixOf (a ++ b) = true := by
  obtain ⟨r, hr⟩ := ipo_iff_exists.mp h
  exact ipo_iff_exists.mpr ⟨r ++ b, by rw [hr, List.append_assoc]⟩

theorem take_marker_length (r : List Char) : (markerL ++ r).take 6 = markerL := by
  rw [List.take_append_eq_append_take]
  norm_num [markerL]

theorem marker_not_at_newline {a : List Char} (ha : a.length < 6) (m : List Char) :
    markerL.isPrefixOf (a ++ '\n' :: m) = false := by
  cases hpf : markerL.isPrefixOf (a ++ '\n' :: m) with
  | false => rfl
  | true =>
    exfalso
    obtain ⟨r, hr⟩ := ipo_iff_exists.mp hpf
    have htake : (a ++ '\n' :: m).take 6 = markerL := by
      rw [hr, take_marker_length]
    rw [List.take_append_eq_append_take, List.take_of_length_le (le_of_lt ha)] at htake
    have h1 : 6 - a.length = (6 - a.length - 1) + 1 := by omega
    rw [h1, List.take_succ_cons] at htake
    have hmem : '\n' ∈ markerL := by
      rw [← htake]
      exact List.mem_append_right _ (List.mem_cons_self _ _)
    exact absurd hmem (by decide)

theorem ipo_marker_of_append {A B : List Char} (h : markerL.isPrefixOf (A ++ B) = true)
    (hlen : 6 ≤ A.length) : markerL.isPrefixOf A = true := by
  obtain ⟨r, hr⟩ := ipo_iff_exists.mp h
  have htake : (A ++ B).take 6 = markerL := by
    rw [hr, take_marker_length]
  rw [List.take_append_of_le_length hlen] at htake
  exact ipo_iff_exists.mpr ⟨A.drop 6, by rw [← htake, List.take_append_drop]⟩

theorem splitMarker_decomp {body pre rest : List Char}
    (h : splitMarker body = some (pre, rest)) : body = pre ++ rest := by
  induction body generalizing pre rest with
  | nil => simp [splitMarker] at h
  | cons c cs ih =>
    rw [splitMarker] at h
    split at h
    · simp only [Option.some.injEq, Prod.mk.injEq] at h
      rw [← h.1, ← h.2]
      rfl
    · cases hcs : splitMarker cs with
      | none => rw [hcs] at h; simp at h
      | some pr =>
        rw [hcs] at h
        obtain ⟨p, r⟩ := pr
        simp only [Option.some.injEq, Prod.mk.injEq] at h
        rw [← h.1, ← h.2, List.cons_append, ih hcs]

theorem splitMarker_marker {body pre rest : List Char}
    (h : splitMarker body = some (pre, rest)) : markerL.isPrefixOf rest = true := by
  induction body generalizing pre rest with
  | nil => simp [splitMarker] at h
  | cons c cs ih =>
    rw [splitMarker] at h
    split at h
    · rename_i hc
      simp only [Option.some.injEq, Prod.mk.injEq] at h
      rw [← h.2]
      exact hc
    · cases hcs : splitMarker cs with
      | none => rw [hcs] at h; simp at h
      | some pr =>
        rw [hcs] at h
        obtain ⟨p, r⟩ := pr
        simp only [Option.some.injEq, Prod.mk.injEq] at h
        rw [← h.2]
        exact ih hcs

theorem splitMarker_noMarker {body pre rest : List Char}
    (h : splitMarker body = some (pre, rest)) :
    ∀ i, markerL.isPrefixOf (pre.drop i) = false := by
  induction body generalizing pre rest with
  | nil => simp [splitMarker] at h
  | cons c cs ih =>
    rw [splitMarker] at h
    split at h
    · simp only [Option.some.injEq, Prod.mk.injEq] at h
      rw [← h.1]
      intro i
      rw [List.drop_nil]
      decide
    · rename_i hc
      cases hcs : splitMarker cs with
      | none => rw [hcs] at h; simp at h
      | some pr =>
        rw [hcs] at h
        obtain ⟨p, r⟩ := pr
        simp only [Option.some.injEq, Prod.mk.injEq] at h
        rw [← h.1]
        intro i
        cases i with
        | zero =>
          cases hpf : markerL.isPrefixOf ((c :: p).drop 0) with
          | false => rfl
          | true =>
            exfalso
            have : markerL.isPrefixOf (c :: cs) = true := by
              have h2 : c :: cs = (c :: p) ++ r := by
                rw [List.cons_append, ← splitMarker_decomp hcs]
              rw [h2]
              exact ipo_extend (by simpa using hpf) r
            simp [this] at hc
        | succ i =>
          simpa using ih hcs i

theorem splitMarker_none_noMarker {body : List Char} (h : splitMarker body = none) :
    ∀ i, markerL.isPrefixOf (body.drop i) = false := by
  induction body with
  | nil =>
    intro i
    rw [List.drop_nil]
    decide
  | cons c cs ih =>
    rw [splitMarker] at h
    split at h
    · simp at h
    · rename_i hc
      cases hcs : splitMarker cs with
      | some pr => rw [hcs] at h; simp at h
      | none =>
        intro i
        cases i with
        | zero =>
          rw [List.drop_zero]
          cases hb : markerL.isPrefixOf (c :: cs) with
          | false => rfl
          | true => exact absurd hb hc
        | succ i =>
          rw [List.drop_succ_cons]
          exact ih hcs i

theorem splitMarker_skip {l m : List Char}
    (h : ∀ i, i < l.length → markerL.isPrefixOf ((l ++ m).drop i) = false) :
    splitMarker (l ++ m) = (splitMarker m).map (fun p => (l ++ p.1, p.2)) := by
  induction l with
  | nil =>
    cases hm : splitMarker m with
    | none => simp [hm]
    | some pr => obtain ⟨p, r⟩ := pr; simp [hm]
  | cons c cs ih =>
    rw [List.cons_append, splitMarker]
    have h0 : markerL.isPrefixOf (c :: (cs ++ m)) = false := by
      simpa using h 0 (by simp)
    rw [if_neg (by simp [h0])]
    have ih' := ih (fun i hi => by simpa using h (i + 1) (by simpa using hi))
    rw [ih']
    cases splitMarker m with
    | none => simp
    | some pr => obtain ⟨p, r⟩ := pr; simp

theorem splitMarker_at {pre tail : List Char}
    (hpre : ∀ i, markerL.isPrefixOf (pre.drop i) = false) :
    splitMarker (pre ++ '\n' :: '\n' :: (markerL ++ tail)) =
      some (pre ++ ['\n', '\n'], markerL ++ tail) := by
  have hm : splitMarker (markerL ++ tail) = some ([], markerL ++ tail) := by
    have hshape : markerL ++ tail = '<' :: ("hr />".toList ++ tail) := rfl
    rw [hshape, splitMarker, if_pos (by rw [← hshape]; exact ipo_append _ _)]
  have hassoc : pre ++ '\n' :: '\n' :: (markerL ++ tail) =
      (pre ++ ['\n', '\n']) ++ (markerL ++ tail) := by
    simp
  rw [hassoc]
  rw [splitMarker_skip ?cond, hm]
  · simp
  case cond =>
    intro i hi
    have hi2 : i < pre.length + 2 := by simpa using hi
    by_cases hile : i ≤ pre.length
    · have hdrop : (((pre ++ ['\n', '\n']) ++ (markerL ++ tail))).drop i =
          pre.drop i ++ '\n' :: '\n' :: (markerL ++ tail) := by
        rw [← hassoc, List.drop_append_of_le_length hile]
      rw [hdrop]
      by_cases h6 : 6 ≤ (pre.drop i).length
      · cases hpf : markerL.isPrefixOf (pre.drop i ++ '\n' :: '\n' :: (markerL ++ tail)) with
        | false => rfl
        | true =>
          exfalso
          have := ipo_marker_of_append hpf h6
          rw [hpre i] at this
          exact Bool.false_ne_true this
      · exact marker_not_at_newline (by omega) _
    · have hieq : i = pre.length + 1 := by omega
      subst hieq
      have hshape2 : (pre ++ ['\n', '\n']) ++ (markerL ++ tail) =
          (pre ++ ['\n']) ++ ('\n' :: (markerL ++ tail)) := by
        simp [List.append_assoc]
      have hlen : pre.length + 1 = (pre ++ ['\n']).length := by simp
      rw [hshape2, hlen, List.drop_left]
      exact @marker_not_at_newline [] (by decide) _

/-! ## Lemmas: the pattern search -/

theorem numSpan_not_head {c : Char} (h : isNumChar c = false) (cs : List Char) :
    numSpan (c :: cs) = ([], c :: cs) := by
  simp [numSpan, h]

theorem numSpan_run {l : List Char} (hl : ∀ a ∈ l, isNumChar a = true)
    {c : Char} (hc : isNumChar c = false) (m : List Char) :
    numSpan (l ++ c :: m) = (l, c :: m) := by
  induction l with
  | nil => exact numSpan_not_head hc m
  | cons d ds ih =>
    have hd : isNumChar d = true := hl d (List.mem_cons_self _ _)
    rw [List.cons_append, numSpan]
    rw [ih (fun a ha => hl a (List.mem_cons_of_mem _ ha))]
    simp [hd]

theorem outOf_not_head {c : Char} (hc : c ≠ ' ') (m : List Char) :
    outOfL.isPrefixOf (c :: m) = false := by
  cases hpf : outOfL.isPrefixOf (c :: m) with
  | false => rfl
  | true =>
    exfalso
    obtain ⟨r, hr⟩ := ipo_iff_exists.mp hpf
    rw [show outOfL ++ r = ' ' :: (['o', 'u', 't', ' ', 'o', 'f', ' '] ++ r) from rfl] at hr
    injection hr with h1 _
    exact hc h1

theorem matchAt_none_head {c : Char} (h : isNumChar c = false) (cs : List Char) :
    matchAt (c :: cs) = none := by
  simp [matchAt, numSpan_not_head h cs]

theorem matchAt_none_run {l : List Char} (hl : ∀ a ∈ l, isNumChar a = true)
    (hl0 : l ≠ []) {c : Char} (hc : isNumChar c = false) (hcsp : c ≠ ' ')
    (m : List Char) : matchAt (l ++ c :: m) = none := by
  simp [matchAt, numSpan_run hl hc, hl0, outOf_not_head hcsp]

theorem matchAt_hit {x y : List Char} (hx : ∀ a ∈ x, isNumChar a = true)
    (hx0 : x ≠ []) (hy : ∀ a ∈ y, isNumChar a = true) (hy0 : y ≠ [])
    (tail : List Char) :
    matchAt (x ++ (outOfL ++ (y ++ (hoursUsedL ++ tail)))) = some (x, y) := by
  have hsp1 : numSpan (x ++ (outOfL ++ (y ++ (hoursUsedL ++ tail)))) =
      (x, outOfL ++ (y ++ (hoursUsedL ++ tail))) := by
    rw [show outOfL ++ (y ++ (hoursUsedL ++ tail)) =
        ' ' :: (['o', 'u', 't', ' ', 'o', 'f', ' '] ++ (y ++ (hoursUsedL ++ tail)))
      from rfl]
    exact numSpan_run hx (by decide) _
  have hipo1 : outOfL.isPrefixOf (outOfL ++ (y ++ (hoursUsedL ++ tail))) = true :=
    ipo_append _ _
  have hdrop : (outOfL ++ (y ++ (hoursUsedL ++ tail))).drop outOfL.length =
      y ++ (hoursUsedL ++ tail) := List.drop_left _ _
  have hsp2 : numSpan (y ++ (hoursUsedL ++ tail)) = (y, hoursUsedL ++ tail) := by
    rw [show hoursUsedL ++ tail =
        ' ' :: (['h', 'o', 'u', 'r', 's', ' ', 'u', 's', 'e', 'd'] ++ tail) from rfl]
    exact numSpan_run hy (by decide) _
  have hipo2 : hoursUsedL.isPrefixOf (hoursUsedL ++ tail) = true := ipo_append _ _
  simp [matchAt, hsp1, hipo1, hdrop, hsp2, hipo2, hx0, hy0]

theorem searchPat_skip_nonnum (l : List Char) {m : List Char}
    (hl : ∀ a ∈ l, isNumChar a = false) :
    searchPat (l ++ m) = searchPat m := by
  induction l with
  | nil => rfl
  | cons c cs ih =>
    rw [List.cons_append, searchPat,
      matchAt_none_head (hl c (List.mem_cons_self _ _)) _]
    exact ih (fun a ha => hl a (List.mem_cons_of_mem _ ha))

theorem searchPat_skip_run (l : List Char) {c : Char} {m : List Char}
    (hl : ∀ a ∈ l, isNumChar a = true) (hc : isNumChar c = false) (hcsp : c ≠ ' ') :
    searchPat (l ++ c :: m) = searchPat (c :: m) := by
  induction l with
  | nil => rfl
  | cons d ds ih =>
    rw [List.cons_append, searchPat]
    rw [show (d :: (ds ++ c :: m) : List Char) = ((d :: ds) ++ c :: m : List Char) from rfl,
      matchAt_none_run hl (by simp) hc hcsp m]
    exact ih (fun a ha => hl a (List.mem_cons_of_mem _ ha))

theorem searchPat_hit {x y : List Char} (hx : ∀ a ∈ x, isNumChar a = true)
    (hx0 : x ≠ []) (hy : ∀ a ∈ y, isNumChar a = true) (hy0 : y ≠ [])
    (tail : List Char) :
    searchPat (x ++ (outOfL ++ (y ++ (hoursUsedL ++ tail)))) = some (x, y) := by
  cases x with
  | nil => exact absurd rfl hx0
  | cons a as =>
    rw [List.cons_append, searchPat, ← List.cons_append,
      matchAt_hit hx hx0 hy hy0 tail]

/-- Skip a single non-`[0-9.]` character during the leftmost search. -/
theorem searchPat_cons_skip {c : Char} (hc : isNumChar c = false) (M : List Char) :
    searchPat (c :: M) = searchPat M := by
  have h := @searchPat_skip_nonnum [c] M
    (fun a ha => by rw [List.mem_singleton] at ha; rw [ha]; exact hc)
  simpa using h

/-- Skip the `2>` junction of a `<h2>` tag during the leftmost search. -/
theorem searchPat_h2_skip (M : List Char) :
    searchPat ('2' :: ('>' :: M)) = searchPat M := by
  have h1 : searchPat (['2'] ++ '>' :: M) = searchPat ('>' :: M) :=
    searchPat_skip_run ['2'] (by decide) (by decide) (by decide)
  have h2 : searchPat ('>' :: M) = searchPat M := searchPat_cons_skip (by decide) M
  exact h1.trans h2

/-- Leftmost search over the generated report fragment: the first match is the
`"{hours:.2f} out of {budget:.0f} hours used"` pair, provided the project name
contributes no `[0-9.]` characters and the percentage digits are numeric. -/
theorem searchPat_report {name pct x y tail : List Char}
    (hname : ∀ a ∈ name, isNumChar a = false)
    (hpct : ∀ a ∈ pct, isNumChar a = true)
    (hx : ∀ a ∈ x, isNumChar a = true) (hx0 : x ≠ [])
    (hy : ∀ a ∈ y, isNumChar a = true) (hy0 : y ≠ []) :
    searchPat ("<hr />\n<h".toList ++ ('2' :: ('>' :: ("Project ".toList ++
      (name ++ (" is ".toList ++ (pct ++ ('%' :: (" complete</h".toList ++
        ('2' :: ('>' :: ("\n<p>".toList ++ (x ++ (outOfL ++ (y ++
          (hoursUsedL ++ tail)))))))))))))))) = some (x, y) := by
  rw [searchPat_skip_nonnum ("<hr />\n<h".toList) (by decide)]
  rw [searchPat_h2_skip]
  rw [searchPat_skip_nonnum ("Project ".toList) (by decide)]
  rw [searchPat_skip_nonnum name hname]
  rw [searchPat_skip_nonnum (" is ".toList) (by decide)]
  rw [searchPat_skip_run pct hpct (by decide) (by decide)]
  rw [searchPat_cons_skip (by decide)]
  rw [searchPat_skip_nonnum (" complete</h".toList) (by decide)]
  rw [searchPat_h2_skip]
  rw [searchPat_skip_nonnum ("\n<p>".toList) (by decide)]
  exact searchPat_hit hx hx0 hy hy0 tail

/-! ## Lemmas: render -/

theorem work_hours_nonneg {units : List WorkUnit} (h : ∀ u ∈ units, 0 ≤ u.hours) :
    0 ≤ work_hours units := by
  apply List.sum_nonneg
  intro x hx
  obtain ⟨u, hu, rfl⟩ := List.mem_map.mp hx
  exact h u hu

theorem percentOf_nonneg {hours budget : ℚ} (hh : 0 ≤ hours) (hb : 0 ≤ budget) :
    0 ≤ percentOf hours budget := by
  rw [percentOf]
  split_ifs with h
  · exact div_nonneg hh hb
  · exact le_refl 0

theorem render_ok_true {name body b1 : List Char} {units : List WorkUnit}
    {budget : ℚ} {force : Bool}
    (h : render name body units budget force = .ok (b1, true)) :
    b1 = newBody (preOf body) name units budget (work_hours units) ∧
      ∀ i, markerL.isPrefixOf ((preOf body).drop i) = false := by
  rw [render] at h
  cases hsp : splitMarker body with
  | none =>
    rw [hsp] at h
    simp only [Except.ok.injEq, Prod.mk.injEq] at h
    have hp : preOf body = body := by rw [preOf, hsp]
    rw [hp]
    exact ⟨h.1.symm, splitMarker_none_noMarker hsp⟩
  | some pr =>
    obtain ⟨pre, rest⟩ := pr
    rw [hsp] at h
    have hpre : preOf body = pre := by rw [preOf, hsp]
    have hnm := splitMarker_noMarker hsp
    rw [hpre]
    cases force with
    | true =>
      simp only [if_true, Except.ok.injEq, Prod.mk.injEq] at h
      exact ⟨h.1.symm, hnm⟩
    | false =>
      simp only [Bool.false_eq_true, if_false] at h
      cases hsr : searchPat rest with
      | none =>
        rw [hsr] at h
        simp only [Except.ok.injEq, Prod.mk.injEq] at h
        exact ⟨h.1.symm, hnm⟩
      | some xy =>
        obtain ⟨xs, ys⟩ := xy
        rw [hsr] at h
        dsimp only at h
        cases hpx : parseFloat xs with
        | none =>
          rw [hpx] at h
          dsimp only at h
          simp at h
        | some px =>
          rw [hpx] at h
          cases hpy : parseFloat ys with
          | none =>
            rw [hpy] at h
            dsimp only at h
            simp at h
          | some py =>
            rw [hpy] at h
            dsimp only at h
            split at h
            · simp at h
            · simp only [Except.ok.injEq, Prod.mk.injEq] at h
              exact ⟨h.1.symm, hnm⟩

theorem render_ok_false {name body b1 : List Char} {units : List WorkUnit}
    {budget : ℚ} {force : Bool}
    (h : render name body units budget force = .ok (b1, false)) : b1 = body := by
  rw [render] at h
  cases hsp : splitMarker body with
  | none =>
    rw [hsp] at h
    simp at h
  | some pr =>
    obtain ⟨pre, rest⟩ := pr
    rw [hsp] at h
    cases force with
    | true => simp at h
    | false =>
      simp only [Bool.false_eq_true, if_false] at h
      cases hsr : searchPat rest with
      | none =>
        rw [hsr] at h
        simp at h
      | some xy =>
        obtain ⟨xs, ys⟩ := xy
        rw [hsr] at h
        dsimp only at h
        cases hpx : parseFloat xs with
        | none => rw [hpx] at h; dsimp only at h; simp at h
        | some px =>
          rw [hpx] at h
          cases hpy : parseFloat ys with
          | none => rw [hpy] at h; dsimp only at h; simp at h
          | some py =>
            rw [hpy] at h
            dsimp only at h
            split at h
            · simp only [Except.ok.injEq, Prod.mk.injEq] at h
              exact h.1.symm
            · simp at h

/-- After a regenerating render with a whole-number budget, nonnegative work
units, and a digit-free project name, the next force-free render hits the
idempotence guard and leaves the body alone. -/
theorem render_regen {name body b1 : List Char} {units : List WorkUnit} {n : ℕ}
    (hname : ∀ a ∈ name, isNumChar a = false)
    (hunits : ∀ u ∈ units, 0 ≤ u.hours)
    (h : render name body units (n : ℚ) false = .ok (b1, true)) :
    render name b1 units (n : ℚ) false = .ok (b1, false) := by
  obtain ⟨hb1, hpre⟩ := render_ok_true h
  have hh0 : 0 ≤ work_hours units := work_hours_nonneg hunits
  have hsplit : splitMarker b1 =
      some (preOf body ++ ['\n', '\n'],
        markerL ++ reportTail name units (n : ℚ) (work_hours units)) := by
    rw [hb1, newBody]
    exact splitMarker_at hpre
  have hpct0 : 0 ≤ percentOf (work_hours units) (n : ℚ) * 100 := by
    have := percentOf_nonneg hh0 (show (0:ℚ) ≤ (n:ℚ) from Nat.cast_nonneg n)
    positivity
  have hpctdig := (@formatFixed_num 1 _ hpct0).2
  have hxdig := (@formatFixed_num 2 _ hh0).2
  have hx0 := (@formatFixed_num 2 _ hh0).1
  have hyeq : formatFixed 0 (n : ℚ) = natRepr n := format0_natCast n
  have hydig : ∀ a ∈ formatFixed 0 (n : ℚ), isNumChar a = true := by
    rw [hyeq]
    exact fun a ha => digit_isNum (natRepr_digits n a ha)
  have hy0 : formatFixed 0 (n : ℚ) ≠ [] := by
    rw [hyeq]
    exact natRepr_ne_nil n
  have hsearch : searchPat (markerL ++ reportTail name units (n : ℚ) (work_hours units)) =
      some (formatFixed 2 (work_hours units), formatFixed 0 (n : ℚ)) :=
    searchPat_report hname hpctdig hxdig hx0 hydig hy0
  have hparse2 : parseFloat (formatFixed 2 (work_hours units)) =
      some ((roundHE (work_hours units * 100) : ℚ) / 100) := parseFloat_format2 hh0
  have hparse0 : parseFloat (formatFixed 0 (n : ℚ)) = some (n : ℚ) := by
    rw [hyeq, parseFloat_natRepr]
  have hguard1 : |work_hours units - (roundHE (work_hours units * 100) : ℚ) / 100| < 1 / 100 :=
    lt_of_le_of_lt (abs_sub_round2 _) (by norm_num)
  have hguard2 : |(n : ℚ) - (n : ℚ)| < 1 / 100 := by
    simp
  rw [render, hsplit]
  simp only [Bool.false_eq_true, if_false, hsearch, hparse2, hparse0]
  rw [if_pos ⟨hguard1, hguard2⟩]

/-! ## Lemmas: monthly aggregation -/

theorem keyLt_trans {a b c : ℤ × ℤ} (h1 : keyLt a b) (h2 : keyLt b c) : keyLt a c := by
  rcases h1 with h1 | ⟨h1, h1'⟩ <;> rcases h2 with h2 | ⟨h2, h2'⟩ <;>
    simp only [keyLt] <;> omega

theorem keyLt_ne {a b : ℤ × ℤ} (h : keyLt a b) : a ≠ b := by
  intro hab
  subst hab
  rcases h with h | ⟨h1, h2⟩ <;> omega

instance : IsTotal WorkUnit unitGe :=
  ⟨fun u v => by
    simp only [unitGe, Date.leB, Bool.or_eq_true, Bool.and_eq_true, decide_eq_true_eq]
    omega⟩

instance : IsTrans WorkUnit unitGe :=
  ⟨fun a b c hab hbc => by
    simp only [unitGe, Date.leB, Bool.or_eq_true, Bool.and_eq_true,
      decide_eq_true_eq] at *
    omega⟩

theorem unitGe_key {u v : WorkUnit} (h : unitGe u v) :
    keyLt (monthKey v) (monthKey u) ∨ monthKey v = monthKey u := by
  simp only [unitGe, Date.leB, Bool.or_eq_true, Bool.and_eq_true,
    decide_eq_true_eq] at h
  simp only [keyLt, monthKey, Prod.mk.injEq]
  omega

theorem groupSums_cons_head (u : WorkUnit) (us : List WorkUnit) :
    ∃ s rest, groupSums (u :: us) = (monthKey u, s) :: rest := by
  rw [groupSums]
  cases hg : groupSums us with
  | nil => exact ⟨u.hours, [], rfl⟩
  | cons p r =>
    obtain ⟨k, s⟩ := p
    by_cases hk : monthKey u = k
    · exact ⟨s + u.hours, r, by simp [hk]⟩
    · exact ⟨u.hours, (k, s) :: r, by simp [hk]⟩

theorem groupSums_nil_iff {us : List WorkUnit} : groupSums us = [] ↔ us = [] := by
  constructor
  · intro h
    cases us with
    | nil => rfl
    | cons u us' =>
      obtain ⟨s, rest, hg⟩ := groupSums_cons_head u us'
      rw [hg] at h
      simp at h
  · intro h
    rw [h, groupSums]

theorem groupSums_sorted_keys {l : List WorkUnit} (hs : List.Sorted unitGe l) :
    List.Pairwise (fun a b : (ℤ × ℤ) × ℚ => keyLt b.1 a.1) (groupSums l) := by
  induction l with
  | nil => simp [groupSums]
  | cons u us ih =>
    rw [List.sorted_cons] at hs
    obtain ⟨hrel, hs'⟩ := hs
    have ihp := ih hs'
    rw [groupSums]
    cases hg : groupSums us with
    | nil => simp
    | cons p rest =>
      obtain ⟨k, s⟩ := p
      dsimp only
      rw [hg] at ihp
      have hk0 : ∃ u' us', us = u' :: us' ∧ k = monthKey u' := by
        cases hus : us with
        | nil => rw [hus, groupSums] at hg; simp at hg
        | cons u' us' =>
          obtain ⟨s', rest', hg'⟩ := groupSums_cons_head u' us'
          rw [hus, hg'] at hg
          simp only [List.cons.injEq, Prod.mk.injEq] at hg
          exact ⟨u', us', rfl, hg.1.1.symm⟩
      obtain ⟨u', us', hus, hkey⟩ := hk0
      have hke : keyLt k (monthKey u) ∨ k = monthKey u := by
        rw [hkey]
        exact unitGe_key (hrel u' (by rw [hus]; exact List.mem_cons_self _ _))
      by_cases hk : monthKey u = k
      · rw [if_pos hk]
        exact List.Pairwise.cons (fun b hb => hk ▸ (List.pairwise_cons.mp ihp).1 b hb)
          (List.pairwise_cons.mp ihp).2
      · rw [if_neg hk]
        refine List.Pairwise.cons ?_ ihp
        intro b hb
        rcases List.mem_cons.mp hb with hb | hb
        · rw [hb]
          rcases hke with hke | hke
          · exact hke
          · exact absurd hke.symm hk
        · have hbk : keyLt b.1 k := (List.pairwise_cons.mp ihp).1 b hb
          rcases hke with hke | hke
          · exact keyLt_trans hbk hke
          · exact absurd hke.symm hk

theorem sumFor_cons_eq {u : WorkUnit} {us : List WorkUnit} {k : ℤ × ℤ}
    (h : monthKey u = k) : sumFor k (u :: us) = u.hours + sumFor k us := by
  simp [sumFor, List.filter_cons, h]

theorem sumFor_cons_ne {u : WorkUnit} {us : List WorkUnit} {k : ℤ × ℤ}
    (h : monthKey u ≠ k) : sumFor k (u :: us) = sumFor k us := by
  simp [sumFor, List.filter_cons, h]

theorem sumFor_eq_zero {k : ℤ × ℤ} {l : List WorkUnit}
    (h : ∀ u ∈ l, monthKey u ≠ k) : sumFor k l = 0 := by
  have : l.filter (fun u => decide (monthKey u = k)) = [] := by
    rw [List.filter_eq_nil_iff]
    intro u hu
    simpa using h u hu
  simp [sumFor, this]

theorem groupSums_sum {l : List WorkUnit} (hs : List.Sorted unitGe l) :
    ∀ k s, (k, s) ∈ groupSums l → s = sumFor k l := by
  induction l with
  | nil => simp [groupSums]
  | cons u us ih =>
    rw [List.sorted_cons] at hs
    obtain ⟨hrel, hs'⟩ := hs
    intro k s hmem
    rw [groupSums] at hmem
    cases hg : groupSums us with
    | nil =>
      rw [hg] at hmem
      have hus : us = [] := groupSums_nil_iff.mp hg
      simp only [List.mem_singleton, Prod.mk.injEq] at hmem
      obtain ⟨h1, h2⟩ := hmem
      subst h1
      subst h2
      rw [hus, sumFor_cons_eq rfl]
      simp [sumFor]
    | cons p rest =>
      obtain ⟨k0, s0⟩ := p
      rw [hg] at hmem
      dsimp only at hmem
      have hpair := groupSums_sorted_keys hs'
      rw [hg] at hpair
      have hk0 : ∃ u' us', us = u' :: us' ∧ k0 = monthKey u' := by
        cases hus : us with
        | nil => rw [hus, groupSums] at hg; simp at hg
        | cons u' us' =>
          obtain ⟨s', rest', hg'⟩ := groupSums_cons_head u' us'
          rw [hus, hg'] at hg
          simp only [List.cons.injEq, Prod.mk.injEq] at hg
          exact ⟨u', us', rfl, hg.1.1.symm⟩
      obtain ⟨u', us', hus, hkey⟩ := hk0
      have hbelow : ∀ v ∈ us, keyLt (monthKey v) k0 ∨ monthKey v = k0 := by
        intro v hv
        rw [hus] at hv hs'
        rw [List.sorted_cons] at hs'
        rcases List.mem_cons.mp hv with hv | hv
        · right; rw [hv, hkey]
        · rw [hkey]
          exact unitGe_key (hs'.1 v hv)
      by_cases hk : monthKey u = k0
      · rw [if_pos hk] at hmem
        rcases List.mem_cons.mp hmem with hm | hm
        · simp only [Prod.mk.injEq] at hm
          have hs0 : s0 = sumFor k0 us :=
            ih hs' k0 s0 (by rw [hg]; exact List.mem_cons_self _ _)
          obtain ⟨h1, h2⟩ := hm
          subst h1
          subst h2
          rw [sumFor_cons_eq hk, ← hs0]
          ring
        · have hks : s = sumFor k us :=
            ih hs' k s (by rw [hg]; exact List.mem_cons_of_mem _ hm)
          have hkk0 : keyLt k k0 := (List.pairwise_cons.mp hpair).1 (k, s) hm
          rw [hks, sumFor_cons_ne (by rw [hk]; exact (keyLt_ne hkk0).symm)]
      · rw [if_neg hk] at hmem
        have hk0u : keyLt k0 (monthKey u) := by
          have := unitGe_key (hrel u' (by rw [hus]; exact List.mem_cons_self _ _))
          rw [← hkey] at this
          rcases this with h | h
          · exact h
          · exact absurd h.symm hk
        rcases List.mem_cons.mp hmem with hm | hm
        · simp only [Prod.mk.injEq] at hm
          have hzero : sumFor k us = 0 := by
            apply sumFor_eq_zero
            intro v hv
            rw [hm.1]
            rcases hbelow v hv with hb | hb
            · exact keyLt_ne (keyLt_trans hb hk0u)
            · rw [hb]; exact keyLt_ne hk0u
          obtain ⟨h1, h2⟩ := hm
          subst h1
          subst h2
          rw [sumFor_cons_eq rfl, hzero]
          ring
        · have hks : s = sumFor k us := ih hs' k s (by rw [hg]; exact hm)
          have hkne : monthKey u ≠ k := by
            rcases List.mem_cons.mp hm with hm2 | hm2
            · simp only [Prod.mk.injEq] at hm2
              rw [hm2.1]
              exact hk
            · have hkk0 : keyLt k k0 := (List.pairwise_cons.mp hpair).1 (k, s) hm2
              exact (keyLt_ne (keyLt_trans hkk0 hk0u)).symm
          rw [hks, sumFor_cons_ne hkne]

theorem groupSums_keys {l : List WorkUnit} (k : ℤ × ℤ) :
    (∃ s, (k, s) ∈ groupSums l) ↔ k ∈ l.map monthKey := by
  induction l with
  | nil => simp [groupSums]
  | cons u us ih =>
    rw [groupSums]
    cases hg : groupSums us with
    | nil =>
      have hus : us = [] := groupSums_nil_iff.mp hg
      subst hus
      simp [eq_comm]
    | cons p rest =>
      obtain ⟨k0, s0⟩ := p
      dsimp only
      rw [hg] at ih
      by_cases hk : monthKey u = k0
      · rw [if_pos hk]
        simp only [List.map_cons, List.mem_cons]
        constructor
        · rintro ⟨s, hs⟩
          rcases hs with h | h
          · left
            simp only [Prod.mk.injEq] at h
            rw [h.1, ← hk]
          · right
            exact ih.mp ⟨s, List.mem_cons_of_mem _ h⟩
        · rintro (h | h)
          · exact ⟨s0 + u.hours, Or.inl (by rw [h, hk])⟩
          · obtain ⟨s, hs⟩ := ih.mpr h
            rcases List.mem_cons.mp hs with h2 | h2
            · refine ⟨s0 + u.hours, Or.inl ?_⟩
              simp only [Prod.mk.injEq] at h2
              rw [h2.1]
            · exact ⟨s, Or.inr h2⟩
      · rw [if_neg hk]
        simp only [List.map_cons, List.mem_cons]
        constructor
        · rintro ⟨s, hs⟩
          rcases hs with h | hs2
          · left
            simp only [Prod.mk.injEq] at h
            exact h.1
          · right
            exact ih.mp ⟨s, List.mem_cons.mpr hs2⟩
        · rintro (h | h)
          · exact ⟨u.hours, Or.inl (by rw [h])⟩
          · obtain ⟨s, hs⟩ := ih.mpr h
            exact ⟨s, Or.inr (List.mem_cons.mp hs)⟩

theorem sortedUnits_sorted (units : List WorkUnit) :
    List.Sorted unitGe (sortedUnits units) :=
  List.sorted_insertionSort unitGe units

theorem sortedUnits_perm (units : List WorkUnit) :
    (sortedUnits units).Perm units :=
  List.perm_insertionSort unitGe units

theorem sumFor_perm {l₁ l₂ : List WorkUnit} (h : l₁.Perm l₂) (k : ℤ × ℤ) :
    sumFor k l₁ = sumFor k l₂ := by
  unfold sumFor
  exact List.Perm.sum_eq (List.Perm.map _ (List.Perm.filter _ h))

/-- The month rows have strictly descending `(year, month)` keys: one row per
month, most recent first. -/
theorem monthlyRows_sorted_keys (units : List WorkUnit) :
    List.Pairwise (fun a b : (ℤ × ℤ) × ℚ => keyLt b.1 a.1) (monthlyRows units) :=
  groupSums_sorted_keys (sortedUnits_sorted units)

/-- Each month row carries that month's total hours over the original units. -/
theorem monthlyRows_sum (units : List WorkUnit) :
    ∀ k s, (k, s) ∈ monthlyRows units → s = sumFor k units := fun k s h =>
  (groupSums_sum (sortedUnits_sorted units) k s h).trans
    (sumFor_perm (sortedUnits_perm units) k)

/-- The month rows carry exactly the `(year, month)` keys present in the
units. -/
theorem monthlyRows_keys (units : List WorkUnit) (k : ℤ × ℤ) :
    (∃ s, (k, s) ∈ monthlyRows units) ↔ k ∈ units.map monthKey :=
  (groupSums_keys k).trans
    (List.Perm.mem_iff (List.Perm.map monthKey (sortedUnits_perm units)))

/-! ## Lemmas: the driver's start date -/

theorem Date.leB_refl (d : Date) : Date.leB d d = true := by
  simp [Date.leB]

theorem sorted_getLast_le {l : List WorkUnit} (hs : List.Sorted unitGe l)
    (h0 : l ≠ []) : ∀ u ∈ l, Date.leB ((l.getLast h0).date) u.date = true := by
  induction l with
  | nil => exact absurd rfl h0
  | cons a t ih =>
    cases t with
    | nil =>
      intro u hu
      rw [List.mem_singleton] at hu
      subst hu
      exact Date.leB_refl u.date
    | cons b t' =>
      rw [List.sorted_cons] at hs
      have hne : b :: t' ≠ [] := by simp
      have hlast : (a :: b :: t').getLast h0 = (b :: t').getLast hne :=
        List.getLast_cons hne
      intro u hu
      rcases List.mem_cons.mp hu with hu | hu
      · subst hu
        rw [hlast]
        exact hs.1 _ (List.getLast_mem hne)
      · rw [hlast]
        exact ih hs.2 hne u hu

/-! ## Lemmas: the threshold evaluator -/

theorem find?_checkpoints (p hours : ℚ) :
    (CHECKPOINT_HOURS.find? fun (c : ℕ) =>
        decide (p < (c : ℚ)) && decide ((c : ℚ) ≤ hours)) =
      if p < (100 : ℚ) ∧ (100 : ℚ) ≤ hours then some 100
      else if p < (300 : ℚ) ∧ (300 : ℚ) ≤ hours then some 300
      else none := by
  rw [CHECKPOINT_HOURS]
  by_cases h1 : p < (100 : ℚ) ∧ (100 : ℚ) ≤ hours
  · rw [if_pos h1]
    simp [List.find?, h1.1, h1.2]
  · rw [if_neg h1]
    have h1' : (decide (p < (100 : ℚ)) && decide ((100 : ℚ) ≤ hours)) = false := by
      rcases not_and_or.mp h1 with h | h <;> simp [h]
    by_cases h2 : p < (300 : ℚ) ∧ (300 : ℚ) ≤ hours
    · rw [if_pos h2]
      simp [List.find?, h1', h2.1, h2.2]
    · rw [if_neg h2]
      have h2' : (decide (p < (300 : ℚ)) && decide ((300 : ℚ) ≤ hours)) = false := by
        rcases not_and_or.mp h2 with h | h <;> simp [h]
      simp [List.find?, h1', h2']

theorem evaluateNotification_some_eval (p d hours start today : ℚ) :
    evaluateNotification (some (p, d)) hours start today =
      if p < (100 : ℚ) ∧ (100 : ℚ) ≤ hours then
        some (.hourCheckpoint 100 ((today - start).floor))
      else if p < (300 : ℚ) ∧ (300 : ℚ) ≤ hours then
        some (.hourCheckpoint 300 ((today - start).floor))
      else if d < start + (CHECKPOINT_DAYS : ℚ) ∧
          start + (CHECKPOINT_DAYS : ℚ) ≤ today then
        some (.dayCheckpoint CHECKPOINT_DAYS hours)
      else none := by
  rw [evaluateNotification]
  rw [find?_checkpoints]
  split_ifs with h1 h2 h3 <;> rfl

theorem evaluateNotification_none (hours start today : ℚ) :
    evaluateNotification none hours start today = none := rfl

/-! ## Claims -/

/-- C1, as frozen, is false on the code: with `budget = 1/2` (and empty body
and units), the report renders the budget as `"{:.0f}"`, i.e. `"0"`, so the
second render parses `Y = 0`, the guard `|0 - 1/2| < 0.01` fails, and the
second call reports `changed = true`, not `false`. -/
theorem c1_counterexample :
    changedOf ((render "P".toList [] [] (1 / 2 : ℚ) false).bind
      (fun r => render "P".toList r.1 [] (1 / 2 : ℚ) false)) = some true := by
  with_unfolding_all decide

/-- C1 (amended): render is idempotent provided the budget is a nonnegative
whole number (so that its `"{:.0f}"` rendering is exact), all work-unit hours
are nonnegative, and the project name contains no `[0-9.]` characters: if a
force-free render returns `(b1, c)`, the next force-free render of `b1` with
the same units and budget returns `(b1, false)`. -/
theorem c1_theorem (name body b1 : List Char) (units : List WorkUnit) (n : ℕ)
    (c : Bool) (hname : ∀ a ∈ name, isNumChar a = false)
    (hunits : ∀ u ∈ units, 0 ≤ u.hours)
    (h : render name body units (n : ℚ) false = .ok (b1, c)) :
    render name b1 units (n : ℚ) false = .ok (b1, false) := by
  cases c with
  | false =>
    have hb := render_ok_false h
    subst hb
    exact h
  | true => exact render_regen hname hunits h

/-- Witness for C1 (amended) at name `"P"`, empty body, no units, budget 0. -/
theorem c1_witness :
    render "P".toList (renderBody (render "P".toList [] [] ((0 : ℕ) : ℚ) false))
        [] ((0 : ℕ) : ℚ) false =
      .ok (renderBody (render "P".toList [] [] ((0 : ℕ) : ℚ) false), false) :=
  c1_theorem "P".toList [] _ [] 0 true (by decide) (by simp)
    (by with_unfolding_all rfl)

/-- C2, as frozen, is false on the code: `main` passes
`work_units[-1]['date']` (the last element in collaborator order), which for
the list `[2024-01-01, 2024-02-01]` is `2024-02-01`, not the earliest date
`2024-01-01` (which is present and minimal). -/
theorem c2_counterexample :
    mainProjectStartDate [⟨⟨2024, 1, 1⟩, 1⟩, ⟨⟨2024, 2, 1⟩, 1⟩] ≠
        some ⟨2024, 1, 1⟩ ∧
      (⟨2024, 1, 1⟩ : Date) ∈
        ([⟨⟨2024, 1, 1⟩, 1⟩, ⟨⟨2024, 2, 1⟩, 1⟩] : List WorkUnit).map (·.date) ∧
      ∀ u ∈ ([⟨⟨2024, 1, 1⟩, 1⟩, ⟨⟨2024, 2, 1⟩, 1⟩] : List WorkUnit),
        Date.leB ⟨2024, 1, 1⟩ u.date = true := by
  refine ⟨by with_unfolding_all decide, by decide, by decide⟩

/-- C2 (amended): the `project_start_date` passed to the evaluator is the
date of the last work unit in the collaborator-returned order; when that list
is sorted newest-first (non-increasing dates), it is the earliest (minimum)
work-unit date. -/
theorem c2_theorem (units : List WorkUnit) (hs : List.Sorted unitGe units)
    (h0 : units ≠ []) :
    ∃ d, mainProjectStartDate units = some d ∧ d ∈ units.map (·.date) ∧
      ∀ u ∈ units, Date.leB d u.date = true := by
  refine ⟨(units.getLast h0).date, ?_, ?_, sorted_getLast_le hs h0⟩
  · rw [mainProjectStartDate, List.getLast?_eq_getLast units h0]
    rfl
  · exact List.mem_map_of_mem _ (List.getLast_mem h0)

/-- Witness for C2 (amended) on a two-unit newest-first list. -/
theorem c2_witness :
    ∃ d, mainProjectStartDate [⟨⟨2024, 2, 1⟩, 1⟩, ⟨⟨2024, 1, 1⟩, 2⟩] = some d ∧
      d ∈ ([⟨⟨2024, 2, 1⟩, 1⟩, ⟨⟨2024, 1, 1⟩, 2⟩] : List WorkUnit).map (·.date) ∧
      ∀ u ∈ ([⟨⟨2024, 2, 1⟩, 1⟩, ⟨⟨2024, 1, 1⟩, 2⟩] : List WorkUnit),
        Date.leB d u.date = true :=
  c2_theorem [⟨⟨2024, 2, 1⟩, 1⟩, ⟨⟨2024, 1, 1⟩, 2⟩] (by decide) (by decide)

/-- C3: an hour-checkpoint notification fires iff a previous-hours value
exists and some checkpoint `c ∈ (100, 300)` satisfies
`previous < c ≤ current`; it names the lowest such checkpoint and at most one
hour notification fires per call (the result is a single `Option`);
`evaluate(90, 105)` names 100 and an absent previous row yields none. -/
theorem c3_theorem :
    (∀ (prev : Option (ℚ × ℚ)) (hours start today : ℚ) (c : ℕ) (e : ℤ),
        evaluateNotification prev hours start today =
            some (.hourCheckpoint c e) →
          ∃ p dte, prev = some (p, dte) ∧ c ∈ CHECKPOINT_HOURS ∧ p < (c : ℚ) ∧
            (c : ℚ) ≤ hours ∧
            ∀ c' ∈ CHECKPOINT_HOURS, p < (c' : ℚ) → (c' : ℚ) ≤ hours → c ≤ c') ∧
    (∀ p dte hours start today : ℚ,
        (∃ c ∈ CHECKPOINT_HOURS, p < (c : ℚ) ∧ (c : ℚ) ≤ hours) →
          ∃ c e, evaluateNotification (some (p, dte)) hours start today =
            some (.hourCheckpoint c e)) ∧
    (∀ hours start today : ℚ, evaluateNotification none hours start today = none) ∧
    evaluateNotification (some (90, 0)) 105 0 0 = some (.hourCheckpoint 100 0) := by
  refine ⟨?_, ?_, fun _ _ _ => rfl, by with_unfolding_all decide⟩
  · intro prev hours start today c e h
    cases prev with
    | none =>
      rw [evaluateNotification_none] at h
      exact absurd h (by simp)
    | some pr =>
      obtain ⟨p, dte⟩ := pr
      rw [evaluateNotification_some_eval] at h
      split_ifs at h with h1 h2 h3
      · simp only [Option.some.injEq, Notification.hourCheckpoint.injEq] at h
        obtain ⟨hc, _⟩ := h
        refine ⟨p, dte, rfl, ?_, ?_, ?_, ?_⟩
        · rw [← hc]; decide
        · rw [← hc]; exact_mod_cast h1.1
        · rw [← hc]; exact_mod_cast h1.2
        · intro c' hc' _ _
          rw [← hc]
          simp [CHECKPOINT_HOURS] at hc'
          omega
      · simp only [Option.some.injEq, Notification.hourCheckpoint.injEq] at h
        obtain ⟨hc, _⟩ := h
        refine ⟨p, dte, rfl, ?_, ?_, ?_, ?_⟩
        · rw [← hc]; decide
        · rw [← hc]; exact_mod_cast h2.1
        · rw [← hc]; exact_mod_cast h2.2
        · intro c' hc' hlt hle
          rw [← hc]
          simp [CHECKPOINT_HOURS] at hc'
          rcases hc' with h' | h'
          · exfalso
            apply h1
            rw [h'] at hlt hle
            exact ⟨by exact_mod_cast hlt, by exact_mod_cast hle⟩
          · omega
      · simp at h
  · intro p dte hours start today hex
    obtain ⟨c, hc, hlt, hle⟩ := hex
    rw [evaluateNotification_some_eval]
    simp [CHECKPOINT_HOURS] at hc
    rcases hc with rfl | rfl
    · rw [if_pos ⟨by exact_mod_cast hlt, by exact_mod_cast hle⟩]
      exact ⟨100, _, rfl⟩
    · by_cases h1 : p < (100 : ℚ) ∧ (100 : ℚ) ≤ hours
      · rw [if_pos h1]
        exact ⟨100, _, rfl⟩
      · rw [if_neg h1, if_pos ⟨by exact_mod_cast hlt, by exact_mod_cast hle⟩]
        exact ⟨300, _, rfl⟩

/-- Witness for C3 at `previous_hours = 90`, `current_hours = 105`. -/
theorem c3_witness :
    ∃ c e, evaluateNotification (some (90, 0)) 105 0 0 =
      some (.hourCheckpoint c e) :=
  c3_theorem.2.1 90 0 105 0 0 ⟨100, by decide, by norm_num, by norm_num⟩

/-- C4: a day-checkpoint notification fires iff no hour checkpoint fired in
the same call, a previous-update date exists, and
`previous_update < start + 365 ≤ today`; the result is a single `Option`, so
at most one notification of either kind is emitted per call; a previous
update at `start+364` with today at `start+366` notifies, while a previous
update already at `start+366` yields none. -/
theorem c4_theorem :
    (∀ (prev : Option (ℚ × ℚ)) (hours start today : ℚ),
        evaluateNotification prev hours start today =
            some (.dayCheckpoint CHECKPOINT_DAYS hours) ↔
          ∃ p pd, prev = some (p, pd) ∧
            (∀ c ∈ CHECKPOINT_HOURS, ¬(p < (c : ℚ) ∧ (c : ℚ) ≤ hours)) ∧
            pd < start + (CHECKPOINT_DAYS : ℚ) ∧
            start + (CHECKPOINT_DAYS : ℚ) ≤ today) ∧
    (∀ (prev : Option (ℚ × ℚ)) (hours start today : ℚ),
        (evaluateNotification prev hours start today).toList.length ≤ 1) ∧
    evaluateNotification (some (50, 364)) 50 0 366 =
      some (.dayCheckpoint 365 50) ∧
    evaluateNotification (some (50, 366)) 50 0 367 = none := by
  refine ⟨?_, ?_, by with_unfolding_all decide, by with_unfolding_all decide⟩
  · intro prev hours start today
    cases prev with
    | none =>
      constructor
      · intro h
        rw [evaluateNotification_none] at h
        exact absurd h (by simp)
      · rintro ⟨p, pd, hpr, -⟩
        exact absurd hpr (by simp)
    | some pr =>
      obtain ⟨p0, pd0⟩ := pr
      rw [evaluateNotification_some_eval]
      split_ifs with h1 h2 h3
      · constructor
        · intro h
          simp at h
        · rintro ⟨p, pd, hpr, hno, -, -⟩
          simp only [Option.some.injEq, Prod.mk.injEq] at hpr
          obtain ⟨rfl, rfl⟩ := hpr
          exact False.elim ((hno 100 (by decide)) (by exact_mod_cast h1))
      · constructor
        · intro h
          simp at h
        · rintro ⟨p, pd, hpr, hno, -, -⟩
          simp only [Option.some.injEq, Prod.mk.injEq] at hpr
          obtain ⟨rfl, rfl⟩ := hpr
          exact False.elim ((hno 300 (by decide)) (by exact_mod_cast h2))
      · refine iff_of_true rfl ⟨p0, pd0, rfl, ?_, h3.1, h3.2⟩
        intro c hc
        simp [CHECKPOINT_HOURS] at hc
        rcases hc with rfl | rfl
        · intro hcon
          exact h1 (by exact_mod_cast hcon)
        · intro hcon
          exact h2 (by exact_mod_cast hcon)
      · constructor
        · intro h
          simp at h
        · rintro ⟨p, pd, hpr, -, hd1, hd2⟩
          simp only [Option.some.injEq, Prod.mk.injEq] at hpr
          obtain ⟨rfl, rfl⟩ := hpr
          exact absurd ⟨hd1, hd2⟩ h3
  · intro prev hours start today
    cases evaluateNotification prev hours start today <;> simp

/-- Witness for C4 at `previous_update = start + 364`, `today = start + 366`. -/
theorem c4_witness :
    evaluateNotification (some (50, 364)) 50 0 366 =
      some (.dayCheckpoint CHECKPOINT_DAYS 50) :=
  (c4_theorem.1 (some (50, 364)) 50 0 366).mpr
    ⟨50, 364, rfl, by with_unfolding_all decide, by norm_num [CHECKPOINT_DAYS],
      by norm_num [CHECKPOINT_DAYS]⟩

/-- C5: whenever the update returns normally it has upserted the project row
with the current hours and a fresh timestamp (`today`), whether or not a
notification fired; when a notification fires and the e-mail transport
fails, the call raises instead of returning, so the row is not persisted by
that call (the `Except.error` carries no updated store). -/
theorem c5_theorem :
    (∀ (db : Db) (sendFails : Bool) (name : String) (hours start today : ℚ)
        (db' : Db) (sent : Bool),
        emailerUpdate db sendFails name hours start today = .ok (db', sent) →
          db' name = some (hours, today)) ∧
    (∀ (db : Db) (name : String) (hours start today : ℚ),
        (evaluateNotification (db name) hours start today).isSome = true →
          emailerUpdate db true name hours start today = .error ()) := by
  constructor
  · intro db sf nm hours start today db' sent h
    rw [emailerUpdate] at h
    cases hev : evaluateNotification (db nm) hours start today with
    | some n =>
      rw [hev] at h
      dsimp only at h
      cases sf with
      | true => simp at h
      | false =>
        simp only [Bool.false_eq_true, if_false, Except.ok.injEq,
          Prod.mk.injEq] at h
        rw [← h.1]
        simp [dbSet]
    | none =>
      rw [hev] at h
      dsimp only at h
      simp only [Except.ok.injEq, Prod.mk.injEq] at h
      rw [← h.1]
      simp [dbSet]
  · intro db nm hours start today hsome
    rw [emailerUpdate]
    cases hev : evaluateNotification (db nm) hours start today with
    | none =>
      rw [hev] at hsome
      simp at hsome
    | some n => simp

/-- Witness for C5 on an empty store: the returned store maps the project to
`(hours, today)`. -/
theorem c5_witness :
    dbSet (fun _ => none) "p" 5 0 "p" = some (5, 0) :=
  c5_theorem.1 (fun _ => none) false "p" 5 0 0 (dbSet (fun _ => none) "p" 5 0)
    false (by with_unfolding_all rfl)

/-- C6: the month table has exactly one row per distinct `(year, month)`
among the units (keys strictly descending, so most recent first, and a key is
present iff some unit has it), each row's value is that month's summed hours
(rendered to two decimals by `formatFixed 2`), and on the three-unit example
the table is February then January with January's sum 5 (rendered "5.00"). -/
theorem c6_theorem :
    (∀ units : List WorkUnit,
        List.Pairwise (fun a b : (ℤ × ℤ) × ℚ => keyLt b.1 a.1)
          (monthlyRows units) ∧
        (∀ k s, (k, s) ∈ monthlyRows units → s = sumFor k units) ∧
        (∀ k, (∃ s, (k, s) ∈ monthlyRows units) ↔ k ∈ units.map monthKey)) ∧
    monthlyRows [⟨⟨2024, 1, 5⟩, 2⟩, ⟨⟨2024, 1, 20⟩, 3⟩, ⟨⟨2024, 2, 1⟩, 1⟩] =
      [((2024, 2), 1), ((2024, 1), 5)] ∧
    formatFixed 2 5 = "5.00".toList := by
  refine ⟨fun units => ⟨monthlyRows_sorted_keys units, monthlyRows_sum units,
    monthlyRows_keys units⟩, by with_unfolding_all decide,
    by with_unfolding_all decide⟩

/-- Witness for C6: January's row on the example list carries the sum 5. -/
theorem c6_witness :
    (5 : ℚ) = sumFor (2024, 1)
      [⟨⟨2024, 1, 5⟩, 2⟩, ⟨⟨2024, 1, 20⟩, 3⟩, ⟨⟨2024, 2, 1⟩, 1⟩] :=
  (c6_theorem.1 [⟨⟨2024, 1, 5⟩, 2⟩, ⟨⟨2024, 1, 20⟩, 3⟩, ⟨⟨2024, 2, 1⟩, 1⟩]).2.1
    (2024, 1) 5 (by with_unfolding_all decide)

/-- C7: the normalizer maps exactly ö,ä,å,Ö,Ä,Å to o,a,a,O,A,A, leaves every
other character unchanged, preserves length, and sends `"Örjan åäö"` to
`"Orjan aao"`; it is a pure total Lean function, hence deterministic. -/
theorem c7_theorem :
    normalize_project_id ("Örjan åäö".toList) = "Orjan aao".toList ∧
    normalize_project_id ("öäåÖÄÅ".toList) = "oaaOAA".toList ∧
    (∀ s : List Char, (normalize_project_id s).length = s.length) ∧
    (∀ c : Char, c ∉ (['ö', 'ä', 'å', 'Ö', 'Ä', 'Å'] : List Char) →
      normalizeChar c = c) := by
  refine ⟨by decide, by decide, fun s => List.length_map s normalizeChar, ?_⟩
  intro c hc
  rw [normalizeChar]
  split_ifs with h1 h2 h3 h4 h5 h6
  · exact absurd (by rw [h1]; decide) hc
  · exact absurd (by rw [h2]; decide) hc
  · exact absurd (by rw [h3]; decide) hc
  · exact absurd (by rw [h4]; decide) hc
  · exact absurd (by rw [h5]; decide) hc
  · exact absurd (by rw [h6]; decide) hc
  · rfl

/-- Witness for C7: an unmapped character passes through. -/
theorem c7_witness : normalizeChar 'x' = 'x' :=
  c7_theorem.2.2.2 'x' (by decide)

/-- C8: with `budget ≤ 0` the percent expression takes the guarded branch, so
the (fallible) division is never evaluated — no `ZeroDivisionError` — and the
completion percentage in the generated report is 0.0 (rendered `"0.0%"`). -/
theorem c8_theorem (units : List WorkUnit) (budget : ℚ) (h : budget ≤ 0) :
    computePercent (work_hours units) budget =
        .ok (percentOf (work_hours units) budget) ∧
      percentOf (work_hours units) budget = 0 ∧
      formatPct (percentOf (work_hours units) budget) = "0.0%".toList := by
  have hnot : ¬budget > 0 := not_lt.mpr h
  have hp : percentOf (work_hours units) budget = 0 := by
    rw [percentOf, if_neg hnot]
  refine ⟨?_, hp, ?_⟩
  · rw [computePercent, if_neg hnot, hp]
  · rw [hp]
    with_unfolding_all decide

/-- Witness for C8 at `budget = 0` and empty units. -/
theorem c8_witness : percentOf (work_hours []) 0 = 0 :=
  (c8_theorem [] 0 (le_refl 0)).2.1

/-- C9, as frozen, is false on the code: the new body is
`pre + "\n" + report` where the dedented report itself begins with
`"\n<hr />"`, so the portion before the first marker is the old pre-marker
portion plus two newline characters, never equal to it. -/
theorem c9_counterexample :
    changedOf (render "P".toList ("A<hr />x".toList) [] 0 false) = some true ∧
      preOf (renderBody (render "P".toList ("A<hr />x".toList) [] 0 false)) ≠
        preOf ("A<hr />x".toList) := by
  refine ⟨by with_unfolding_all decide, by with_unfolding_all decide⟩

/-- C9 (amended): whenever render reports `changed = true`, the portion of
the new body strictly before its first marker equals the existing body's
pre-marker portion (the whole body when the marker is absent) followed by
exactly two newline characters; everything at and after the marker is the
freshly generated fragment. -/
theorem c9_theorem (name body b1 : List Char) (units : List WorkUnit)
    (budget : ℚ) (force : Bool)
    (h : render name body units budget force = .ok (b1, true)) :
    preOf b1 = preOf body ++ ['\n', '\n'] := by
  obtain ⟨hb1, hpre⟩ := render_ok_true h
  rw [hb1, preOf, newBody, splitMarker_at hpre]

/-- Witness for C9 (amended) on the body `"A<hr />x"`. -/
theorem c9_witness :
    preOf (renderBody (render "P".toList ("A<hr />x".toList) [] 0 false)) =
      preOf ("A<hr />x".toList) ++ ['\n', '\n'] :=
  c9_theorem "P".toList ("A<hr />x".toList) _ [] 0 false
    (by with_unfolding_all rfl)

/-- C10: the idempotence guard compares only the two parsed figures against
the computed total and the budget; any body whose post-marker content matches
the pattern within tolerance is returned unmodified with `changed = false`,
for every unit list with that total, regardless of how hours distribute over
months (the monthly table is never consulted). -/
theorem c10_theorem (name body : List Char) (units : List WorkUnit)
    (budget : ℚ) (pre rest xs ys : List Char) (x y : ℚ)
    (hsp : splitMarker body = some (pre, rest))
    (hsr : searchPat rest = some (xs, ys))
    (hpx : parseFloat xs = some x) (hpy : parseFloat ys = some y)
    (h1 : |work_hours units - x| < 1 / 100) (h2 : |y - budget| < 1 / 100) :
    render name body units budget false = .ok (body, false) := by
  rw [render, hsp]
  simp only [Bool.false_eq_true, if_false, hsr, hpx, hpy]
  rw [if_pos ⟨h1, h2⟩]

/-- Witness for C10: a one-unit list whose monthly table differs from the
page's table still skips the update because the totals match. -/
theorem c10_witness :
    render "N".toList ("h<hr />5.00 out of 10 hours used x".toList)
        [⟨⟨2024, 3, 3⟩, 5⟩] 10 false =
      .ok ("h<hr />5.00 out of 10 hours used x".toList, false) :=
  c10_theorem "N".toList _ [⟨⟨2024, 3, 3⟩, 5⟩] 10 "h".toList
    ("<hr />5.00 out of 10 hours used x".toList) ("5.00".toList)
    ("10".toList) 5 10 (by with_unfolding_all rfl) (by with_unfolding_all rfl)
    (by with_unfolding_all rfl) (by with_unfolding_all rfl)
    (by with_unfolding_all decide) (by with_unfolding_all decide)

end Timelog
